import Mathlib

/-!
Shallow embedding of the tichuclient repository's session client
(`src/client.py`).  The `Client` class keeps a hand and a stage as lists of
`(original index, card)` pairs (the hand setter wraps the assigned list with
`enumerate`, lines 32-40), a `turn` flag, a `connected` flag and two queues.
The background listener (`_listen`, lines 77-113) splits each received chunk
into newline-terminated lines, splits every line on its first colon into
`status:message`, and routes push frames (after topic-specific side effects)
to the push queue and everything else to the response queue.  Note that the
decode buffer restarts empty on every iteration of the select loop, because
`data = key.data` rebinds a local variable and the remainder is never written
back; each call of `listenRecv` below therefore models one iteration of the
loop body starting from an empty buffer, exactly as the code does.

Queues are modelled as lists with enqueue at the tail.  The blocking
`_send_and_recv` is modelled by passing the dequeued `(status, message)`
reply as an explicit argument to the session operations.  An uncaught Python
exception inside the listener thread is modelled by the `crash` constructor
of `ListenResult`, which carries the object state at the moment the
exception was raised (mutations made earlier in the same batch persist).
-/

deriving instance DecidableEq for Except

namespace TichuClient

/-- Payload of a queued push message: the listener enqueues either the raw
message string or, for the `newtrick` topic, the parsed list of card names
(client.py lines 104-111). -/
inductive PushMsg where
  | str (m : String)
  | cards (cs : List String)
deriving DecidableEq

/-- The mutable state of a `Client` object (client.py lines 19-26): the
`connected` flag, `_hand` and `_stage` as lists of `(original index, card)`
pairs, the `turn` flag and the two message queues. -/
structure ClientState where
  connected : Bool
  hand : List (Nat × String)
  stage : List (Nat × String)
  turn : Bool
  pushQ : List (String × PushMsg)
  respQ : List (String × String)
deriving DecidableEq

/-- The public `hand` getter strips the saved original indices
(client.py lines 37-40). -/
def handView (s : ClientState) : List String := s.hand.map Prod.snd

/-- The public `stage` getter (client.py lines 46-49). -/
def stageView (s : ClientState) : List String := s.stage.map Prod.snd

/-- The `hand` setter `self._hand = list(enumerate(h))` (client.py
lines 32-35): every card is tagged with its index in the assigned list. -/
def setHand (s : ClientState) (h : List String) : ClientState :=
  { s with hand := h.enum }

/-- `delete_cards` (client.py lines 158-162): clears stage and hand. -/
def delete_cards (s : ClientState) : ClientState :=
  { s with stage := [], hand := [] }

/-- Split a character list at every occurrence of `c`, as Python's
`str.split` with a one-character separator does: `n` separators yield
`n + 1` pieces, so an empty input gives one empty piece and a trailing
separator yields a trailing empty piece. -/
def splitAll (c : Char) : List Char → List (List Char)
  | [] => [[]]
  | a :: l =>
    if a = c then [] :: splitAll c l
    else
      match splitAll c l with
      | [] => [[a]]
      | p :: ps => (a :: p) :: ps

/-- `msg.lower().split(",")[:-1]`, the card-list decoding used at client.py
lines 105 and 134: lower-case, split on every comma, drop the last piece
(the split of a string ending in a comma always ends with an empty piece). -/
def parseCardList (m : String) : List String :=
  ((splitAll ',' (m.data.map Char.toLower)).map String.mk).dropLast

/-- Split a character list at the first occurrence of `c`, returning the
parts before and after it, or `none` when `c` does not occur.  This is the
common core of `data.find(b"\n")` (client.py line 95) and
`.split(":", 1)` (lines 98 and 103). -/
def splitFirst (c : Char) : List Char → Option (List Char × List Char)
  | [] => none
  | a :: l =>
    if a = c then some ([], l)
    else
      match splitFirst c l with
      | none => none
      | some (pre, post) => some (a :: pre, post)

/-- Decompose a buffer into the list of complete newline-terminated lines
and the unterminated remainder, as the `while b"\n" in data` loop does
(client.py lines 94-99). -/
def splitLines : List Char → List (List Char) × List Char
  | [] => ([], [])
  | a :: l =>
    if a = '\n' then ([] :: (splitLines l).1, (splitLines l).2)
    else
      match splitLines l with
      | ([], rem) => ([], a :: rem)
      | (line :: ls, rem) => ((a :: line) :: ls, rem)

/-- Topic-specific handling of one push frame (client.py lines 101-111):
`newtrick` enqueues the parsed card list, `yourturn` only sets the turn
flag (`continue` skips the enqueue), `clearcards` clears hand and stage and
then enqueues, and every other topic is enqueued unchanged. -/
def routePush (s : ClientState) (topic m : String) : ClientState :=
  if topic = "newtrick" then
    { s with pushQ := s.pushQ ++ [(topic, PushMsg.cards (parseCardList m))] }
  else if topic = "yourturn" then
    { s with turn := true }
  else if topic = "clearcards" then
    let s' := delete_cards s
    { s' with pushQ := s'.pushQ ++ [(topic, PushMsg.str m)] }
  else
    { s with pushQ := s.pushQ ++ [(topic, PushMsg.str m)] }

/-- Outcome of one iteration of the listener loop body: either the next
state (the loop then re-checks `self.connected`), or a crash — an uncaught
exception that terminates the listener thread, carrying the object state at
the moment it was raised. -/
inductive ListenResult where
  | next (s : ClientState)
  | crash (s : ClientState)
deriving DecidableEq

/-- The `connected` flag of the state inside a `ListenResult`. -/
def connectedAfter : ListenResult → Bool
  | ListenResult.next s => s.connected
  | ListenResult.crash s => s.connected

/-- Process the complete lines extracted from one received chunk
(client.py lines 94-113).  A line without a colon makes the unpacking
`status, msg = ....split(":", 1)` raise ValueError, as does a push payload
without a colon at line 103; both crash the listener thread. -/
def processLines : ClientState → List (List Char) → ListenResult
  | s, [] => ListenResult.next s
  | s, line :: ls =>
    match splitFirst ':' line with
    | none => ListenResult.crash s
    | some (st, msg) =>
      if String.mk st = "push" then
        match splitFirst ':' msg with
        | none => ListenResult.crash s
        | some (tp, m) => processLines (routePush s (String.mk tp) (String.mk m)) ls
      else
        processLines { s with respQ := s.respQ ++ [(String.mk st, String.mk msg)] } ls

/-- One iteration of the listener's read branch (client.py lines 89-113):
append the received bytes to the (always empty) buffer, extract the complete
lines and route each one.  The unterminated remainder is dropped, as the
code keeps it only in a local variable. -/
def listenRecv (s : ClientState) (recvData : List Char) : ListenResult :=
  processLines s (splitLines recvData).1

/-- `_send` (client.py lines 115-116): append a single newline and encode.
The byte level is modelled at character granularity, which is faithful
because `"\n"` and `":"` are one-byte UTF-8 code points that never occur
inside the encoding of another character. -/
def encodeCmd (cmd : String) : List Char := (cmd ++ "\n").data

/-- Split one decoded line on its first colon into a
`(status, message)` frame (client.py line 98); `none` models the
ValueError raised when the line has no colon. -/
def splitStatus (line : List Char) : Option (String × String) :=
  match splitFirst ':' line with
  | none => none
  | some (pre, pay) => some (String.mk pre, String.mk pay)

/-- The pure frame-extraction part of the listener's decode step
(client.py lines 94-99): the complete lines each split on their first
colon, plus the unterminated remainder; `none` when some line has no
colon. -/
def decodeFrames (data : List Char) : Option (List (String × String)) × List Char :=
  let p := splitLines data
  (go p.1, p.2)
where
  go : List (List Char) → Option (List (String × String))
    | [] => some []
    | line :: ls =>
      match splitStatus line with
      | none => none
      | some f => (go ls).map fun fs => f :: fs

/-- The first-colon split of a command string, the frame the round-trip
property compares against. -/
def firstColonSplit (cmd : String) : Option (String × String) :=
  splitStatus cmd.data

/-- Python's index normalisation for `list.pop(i)` on a list of length
`n`: a negative index counts from the end; the result is the effective
position, or `none` (IndexError) when it is out of range. -/
def pyIdx (n : Nat) (i : Int) : Option Nat :=
  let k : Int := if i < 0 then i + n else i
  if 0 ≤ k ∧ k < (n : Int) then some k.toNat else none

/-- Python's `list.pop(i)`: remove and return the element at (normalised)
index `i`; `none` models IndexError. -/
def pyPop (l : List α) (i : Int) : Option (α × List α) :=
  match pyIdx l.length i with
  | none => none
  | some k =>
    match l.get? k with
    | none => none
    | some a => some (a, l.eraseIdx k)

/-- Insertion at a position that is clamped to the length of the list, the
behaviour of Python's `list.insert` once the index is normalised. -/
def pyInsertNat : Nat → α → List α → List α
  | 0, x, l => x :: l
  | _ + 1, x, [] => [x]
  | n + 1, x, a :: l => a :: pyInsertNat n x l

/-- Python's `list.insert(j, x)`: a negative index counts from the end and
is clamped to `0`; a positive index is clamped to the length.  `insert`
never raises for any index. -/
def pyInsert (l : List α) (j : Int) (x : α) : List α :=
  let n := l.length
  let k : Int := if j < 0 then max (j + n) 0 else min j n
  pyInsertNat k.toNat x l

/-- `stage_card(i, j)` (client.py lines 138-141):
`self._stage.insert(j, self._hand.pop(i))`.  The pop is evaluated first;
if it raises, the insert never happens. -/
def stage_card (i j : Int) (s : ClientState) : Option ClientState :=
  match pyPop s.hand i with
  | none => none
  | some (c, rest) => some { s with hand := rest, stage := pyInsert s.stage j c }

/-- `unstage_card(i, j)` (client.py lines 143-146):
`self._hand.insert(j, self._stage.pop(i))`. -/
def unstage_card (i j : Int) (s : ClientState) : Option ClientState :=
  match pyPop s.stage i with
  | none => none
  | some (c, rest) => some { s with stage := rest, hand := pyInsert s.hand j c }

/-- `move_hand(i, j)` (client.py lines 148-151):
`self._hand.insert(j, self._hand.pop(i))`; the insert operates on the
already-shortened list. -/
def move_hand (i j : Int) (s : ClientState) : Option ClientState :=
  match pyPop s.hand i with
  | none => none
  | some (c, rest) => some { s with hand := pyInsert rest j c }

/-- `move_stage(i, j)` (client.py lines 153-156). -/
def move_stage (i j : Int) (s : ClientState) : Option ClientState :=
  match pyPop s.stage i with
  | none => none
  | some (c, rest) => some { s with stage := pyInsert rest j c }

/-- The command string sent by `play` (client.py lines 167-168):
`"play "` followed by the space-separated first components of the staged
pairs, i.e. the original hand indices saved by the hand setter. -/
def playCmd (s : ClientState) : String :=
  "play " ++ String.intercalate " " (s.stage.map fun p => toString p.1)

/-- The state transformation of `play` (client.py lines 164-173) applied to
the dequeued reply: on "ok" the stage empties and the turn flag clears, on
anything else `TichuError(message)` is raised. -/
def play (resp : String × String) (s : ClientState) : Except String ClientState :=
  if resp.1 = "ok" then Except.ok { s with stage := [], turn := false }
  else Except.error resp.2

/-- `pass_play` (client.py lines 175-180): on "ok" the turn flag clears,
otherwise `TichuError(message)` is raised. -/
def pass_play (resp : String × String) (s : ClientState) : Except String ClientState :=
  if resp.1 = "ok" then Except.ok { s with turn := false }
  else Except.error resp.2

/-- The command string sent by `request_cards` (client.py line 131). -/
def request_cards_cmd : String := "takecards"

/-- `request_cards` (client.py lines 128-136) applied to the dequeued
reply: on "ok" the hand is assigned the parsed card list (through the
enumerating setter), on "err" `TichuError(message)` is raised, and on any
other status nothing happens. -/
def request_cards (resp : String × String) (s : ClientState) : Except String ClientState :=
  if resp.1 = "ok" then Except.ok (setHand s (parseCardList resp.2))
  else if resp.1 = "err" then Except.error resp.2
  else Except.ok s

/-- An abstract inbound frame, as the server produces them: either a push
with a topic, or a status reply. -/
inductive Frame where
  | push (topic m : String)
  | resp (status m : String)
deriving DecidableEq

/-- The wire form of a frame: `status:message\n`, where a push frame's
message is itself `topic:message`. -/
def frameChars : Frame → List Char
  | Frame.push t m => "push".data ++ ':' :: t.data ++ ':' :: m.data ++ ['\n']
  | Frame.resp st m => st.data ++ ':' :: m.data ++ ['\n']

/-- Concatenation of the wire forms of a list of frames. -/
def encodeFrames : List Frame → List Char
  | [] => []
  | f :: fs => frameChars f ++ encodeFrames fs

/-- A frame the wire protocol can represent unambiguously: no newline in
topic, status or message, no colon in topic or status, and a reply status
distinct from the reserved word "push". -/
def wellFormedFrame : Frame → Bool
  | Frame.push t m =>
    decide ('\n' ∉ t.data) && decide (':' ∉ t.data) && decide ('\n' ∉ m.data)
  | Frame.resp st m =>
    decide ('\n' ∉ st.data) && decide (':' ∉ st.data) && decide (st ≠ "push")
      && decide ('\n' ∉ m.data)

/-- The entry a frame contributes to the response queue. -/
def respEntry : Frame → Option (String × String)
  | Frame.push _ _ => none
  | Frame.resp st m => some (st, m)

/-- The entry a frame contributes to the push queue: pushes after their
topic-specific decoding, with `yourturn` contributing nothing, and replies
contributing nothing. -/
def pushEntry : Frame → Option (String × PushMsg)
  | Frame.push t m =>
    if t = "newtrick" then some (t, PushMsg.cards (parseCardList m))
    else if t = "yourturn" then none
    else some (t, PushMsg.str m)
  | Frame.resp _ _ => none

/-- The wire form of a frame without its newline terminator: the line the
listener's decode extracts. -/
def lineChars : Frame → List Char
  | Frame.push t m => "push".data ++ ':' :: t.data ++ ':' :: m.data
  | Frame.resp st m => st.data ++ ':' :: m.data

/-- The state transformation one well-formed decoded frame causes in the
listener (client.py lines 100-113): pushes go through the topic routing,
everything else is appended to the response queue. -/
def applyFrame (s : ClientState) : Frame → ClientState
  | Frame.push t m => routePush s t m
  | Frame.resp st m => { s with respQ := s.respQ ++ [(st, m)] }

/-- Client states reachable from a freshly assigned hand `h` (stage empty)
by any succeeding sequence of the four local card operations. -/
inductive ReachLocal (h : List String) : ClientState → Prop where
  | base (s : ClientState) : s.hand = h.enum → s.stage = [] → ReachLocal h s
  | stage_step (s s' : ClientState) (i j : Int) :
      ReachLocal h s → stage_card i j s = some s' → ReachLocal h s'
  | unstage_step (s s' : ClientState) (i j : Int) :
      ReachLocal h s → unstage_card i j s = some s' → ReachLocal h s'
  | move_hand_step (s s' : ClientState) (i j : Int) :
      ReachLocal h s → move_hand i j s = some s' → ReachLocal h s'
  | move_stage_step (s s' : ClientState) (i j : Int) :
      ReachLocal h s → move_stage i j s = some s' → ReachLocal h s'

/-- Python's bounds condition for `list.pop` on a list of length `n`:
indices from `-n` to `n - 1` are in range. -/
def pyInRange (i : Int) (n : Nat) : Prop := -(n : Int) ≤ i ∧ i < (n : Int)

instance (i : Int) (n : Nat) : Decidable (pyInRange i n) := by
  unfold pyInRange; infer_instance

/-! ### Properties of the frame codec primitives -/

theorem splitFirst_eq_none_of_not_mem {c : Char} {l : List Char} (h : c ∉ l) :
    splitFirst c l = none := by
  induction l with
  | nil => rfl
  | cons a l ih =>
    have hac : ¬a = c := fun e => h (e ▸ List.mem_cons_self a l)
    have htl : c ∉ l := fun hm => h (List.mem_cons_of_mem a hm)
    simp [splitFirst, hac, ih htl]

theorem splitFirst_structure {c : Char} {l pre post : List Char}
    (h : splitFirst c l = some (pre, post)) : l = pre ++ c :: post ∧ c ∉ pre := by
  induction l generalizing pre post with
  | nil => simp [splitFirst] at h
  | cons a l ih =>
    by_cases hac : a = c
    · subst hac
      simp [splitFirst] at h
      obtain ⟨h1, h2⟩ := h
      subst h1; subst h2
      simp
    · rcases hs : splitFirst c l with _ | ⟨p, q⟩
      · simp [splitFirst, hac, hs] at h
      · simp only [splitFirst, if_neg hac, hs, Option.some.injEq, Prod.mk.injEq] at h
        obtain ⟨h1, h2⟩ := h
        subst h1; subst h2
        obtain ⟨hl, hnp⟩ := ih hs
        constructor
        · simp [hl]
        · intro hm
          rcases List.mem_cons.mp hm with e | hm'
          · exact hac e.symm
          · exact hnp hm'

theorem splitFirst_append_self {c : Char} {l₁ l₂ : List Char} (h : c ∉ l₁) :
    splitFirst c (l₁ ++ c :: l₂) = some (l₁, l₂) := by
  induction l₁ with
  | nil => simp [splitFirst]
  | cons a l ih =>
    have hac : ¬a = c := fun e => h (e ▸ List.mem_cons_self a l)
    have htl : c ∉ l := fun hm => h (List.mem_cons_of_mem a hm)
    simp [splitFirst, hac, ih htl]

theorem splitFirst_isSome_of_mem {c : Char} {l : List Char} (h : c ∈ l) :
    (splitFirst c l).isSome := by
  induction l with
  | nil => simp at h
  | cons a l ih =>
    by_cases hac : a = c
    · simp [splitFirst, hac]
    · have hm : c ∈ l := by
        rcases List.mem_cons.mp h with e | hm'
        · exact absurd e.symm hac
        · exact hm'
      rcases hs : splitFirst c l with _ | ⟨p, q⟩
      · rw [hs] at ih; simp at ih; exact absurd hm (by simpa using ih)
      · simp [splitFirst, hac, hs]

theorem splitLines_of_no_newline {l : List Char} (h : '\n' ∉ l) :
    splitLines l = ([], l) := by
  induction l with
  | nil => rfl
  | cons a l ih =>
    have hne : ¬a = '\n' := fun e => h (e ▸ List.mem_cons_self a l)
    have htl : '\n' ∉ l := fun hm => h (List.mem_cons_of_mem a hm)
    simp [splitLines, hne, ih htl]

theorem splitLines_cons_line {line rest : List Char} (h : '\n' ∉ line) :
    splitLines (line ++ '\n' :: rest) =
      (line :: (splitLines rest).1, (splitLines rest).2) := by
  induction line with
  | nil => simp [splitLines]
  | cons a l ih =>
    have hne : ¬a = '\n' := fun e => h (e ▸ List.mem_cons_self a l)
    have htl : '\n' ∉ l := fun hm => h (List.mem_cons_of_mem a hm)
    simp [splitLines, hne, ih htl]

/-! ### Properties of the Python sequence primitives -/

theorem pyIdx_isSome_iff {n : Nat} {i : Int} : (pyIdx n i).isSome ↔ pyInRange i n := by
  simp only [pyIdx, pyInRange]
  split_ifs with h <;> simp <;> omega

theorem pyIdx_eq_some_bound {n : Nat} {i : Int} {k : Nat} (h : pyIdx n i = some k) :
    k < n := by
  simp only [pyIdx] at h
  by_cases hneg : i < 0
  · simp only [if_pos hneg] at h
    by_cases hc : 0 ≤ i + (n : Int) ∧ i + (n : Int) < (n : Int)
    · rw [if_pos hc] at h
      have := Option.some.inj h
      omega
    · rw [if_neg hc] at h
      exact absurd h (by simp)
  · simp only [if_neg hneg] at h
    by_cases hc : 0 ≤ i ∧ i < (n : Int)
    · rw [if_pos hc] at h
      have := Option.some.inj h
      omega
    · rw [if_neg hc] at h
      exact absurd h (by simp)

theorem pyIdx_of_nonneg {n : Nat} {i : Int} (h0 : 0 ≤ i) (h1 : i < (n : Int)) :
    pyIdx n i = some i.toNat := by
  simp only [pyIdx]
  have hneg : ¬i < 0 := not_lt.mpr h0
  simp [hneg, h0, h1]

theorem pyPop_eq_some {l : List α} {i : Int} {a : α} {l' : List α}
    (h : pyPop l i = some (a, l')) :
    ∃ k, pyIdx l.length i = some k ∧ l.get? k = some a ∧ l' = l.eraseIdx k := by
  rcases hk : pyIdx l.length i with _ | k
  · simp only [pyPop, hk] at h
    exact absurd h (by simp)
  · simp only [pyPop, hk] at h
    rcases hg : l.get? k with _ | b
    · simp only [hg] at h
      exact absurd h (by simp)
    · simp only [hg, Option.some.injEq, Prod.mk.injEq] at h
      exact ⟨k, rfl, by rw [hg, h.1], h.2.symm⟩

theorem pyPop_isSome_iff {l : List α} {i : Int} :
    (pyPop l i).isSome ↔ pyInRange i l.length := by
  rcases hk : pyIdx l.length i with _ | k
  · have hni : ¬pyInRange i l.length := by
      rw [← @pyIdx_isSome_iff l.length i, hk]; simp
    simp [pyPop, hk, hni]
  · have hr : pyInRange i l.length := by
      rw [← @pyIdx_isSome_iff l.length i, hk]; simp
    have hlt : k < l.length := pyIdx_eq_some_bound hk
    rcases hg : l.get? k with _ | b
    · rw [List.get?_eq_none] at hg; omega
    · have hg' : l[k]? = some b := by rw [← List.get?_eq_getElem?]; exact hg
      simp [pyPop, hk, hg, hg', hr]

theorem pyPop_mem {l : List α} {i : Int} {a : α} {l' : List α}
    (h : pyPop l i = some (a, l')) : a ∈ l := by
  obtain ⟨k, _, hg, _⟩ := pyPop_eq_some h
  exact List.get?_mem hg

theorem pyPop_subset {l : List α} {i : Int} {a : α} {l' : List α}
    (h : pyPop l i = some (a, l')) : ∀ x ∈ l', x ∈ l := by
  obtain ⟨k, _, _, he⟩ := pyPop_eq_some h
  intro x hx
  exact List.mem_of_mem_eraseIdx (he ▸ hx)

theorem pyPop_of_nonneg {l : List α} {i : Int} (h0 : 0 ≤ i) (h1 : i < (l.length : Int)) :
    ∃ a, l.get? i.toNat = some a ∧ pyPop l i = some (a, l.eraseIdx i.toNat) := by
  have hk := pyIdx_of_nonneg h0 h1
  have hlt : i.toNat < l.length := by omega
  rcases hg : l.get? i.toNat with _ | a
  · rw [List.get?_eq_none] at hg; omega
  · exact ⟨a, rfl, by simp only [pyPop, hk, hg]⟩

theorem pyInsertNat_mem {x a : α} {k : Nat} {l : List α}
    (h : x ∈ pyInsertNat k a l) : x = a ∨ x ∈ l := by
  induction k generalizing l with
  | zero =>
    rcases List.mem_cons.mp h with e | hm
    · exact Or.inl e
    · exact Or.inr hm
  | succ n ih =>
    cases l with
    | nil => simp [pyInsertNat] at h; exact Or.inl h
    | cons b t =>
      rcases List.mem_cons.mp h with e | hm
      · exact Or.inr (e ▸ List.mem_cons_self b t)
      · rcases ih hm with e | hm'
        · exact Or.inl e
        · exact Or.inr (List.mem_cons_of_mem b hm')

theorem pyInsertNat_length {k : Nat} {x : α} {l : List α} :
    (pyInsertNat k x l).length = l.length + 1 := by
  induction k generalizing l with
  | zero => rfl
  | succ n ih =>
    cases l with
    | nil => rfl
    | cons b t => simp [pyInsertNat, ih]

theorem get?_pyInsertNat_self {k : Nat} {x : α} {l : List α} (h : k ≤ l.length) :
    (pyInsertNat k x l).get? k = some x := by
  induction k generalizing l with
  | zero => rfl
  | succ n ih =>
    cases l with
    | nil => simp at h
    | cons b t => exact ih (Nat.le_of_succ_le_succ h)

theorem eraseIdx_pyInsertNat_self {k : Nat} {x : α} {l : List α} (h : k ≤ l.length) :
    (pyInsertNat k x l).eraseIdx k = l := by
  induction k generalizing l with
  | zero => rfl
  | succ n ih =>
    cases l with
    | nil => simp at h
    | cons b t => simp [pyInsertNat, List.eraseIdx, ih (Nat.le_of_succ_le_succ h)]

theorem pyInsertNat_get_eraseIdx {k : Nat} {a : α} {l : List α}
    (h : l.get? k = some a) : pyInsertNat k a (l.eraseIdx k) = l := by
  induction k generalizing l with
  | zero =>
    cases l with
    | nil => simp at h
    | cons b t =>
      simp only [List.get?] at h
      simp [pyInsertNat, List.eraseIdx, Option.some.inj h]
  | succ n ih =>
    cases l with
    | nil => simp at h
    | cons b t =>
      simp only [List.get?] at h
      simp [pyInsertNat, List.eraseIdx, ih h]

theorem pyInsert_of_nonneg {l : List α} {j : Int} {x : α}
    (h0 : 0 ≤ j) (h1 : j ≤ (l.length : Int)) :
    pyInsert l j x = pyInsertNat j.toNat x l := by
  simp only [pyInsert]
  have hneg : ¬j < 0 := not_lt.mpr h0
  simp [hneg, min_eq_left h1]

theorem pyInsert_mem {x a : α} {l : List α} {j : Int}
    (h : x ∈ pyInsert l j a) : x = a ∨ x ∈ l := by
  simp only [pyInsert] at h
  exact pyInsertNat_mem h

/-! ### Properties of the listener's frame handling -/

theorem frameChars_eq (f : Frame) : frameChars f = lineChars f ++ ['\n'] := by
  cases f <;> simp [frameChars, lineChars]

theorem newline_not_mem_lineChars {f : Frame} (h : wellFormedFrame f = true) :
    '\n' ∉ lineChars f := by
  cases f with
  | push t m =>
    simp only [wellFormedFrame, Bool.and_eq_true, decide_eq_true_eq] at h
    obtain ⟨⟨h1, h2⟩, h3⟩ := h
    have hp : '\n' ∉ "push".data := by decide
    have hc : ¬('\n' = ':') := by decide
    simp [lineChars, List.mem_append, List.mem_cons, hp, hc, h1, h3]
  | resp st m =>
    simp only [wellFormedFrame, Bool.and_eq_true, decide_eq_true_eq] at h
    obtain ⟨⟨⟨h1, h2⟩, h3⟩, h4⟩ := h
    have hc : ¬('\n' = ':') := by decide
    simp [lineChars, List.mem_append, List.mem_cons, hc, h1, h4]

theorem processLines_applyFrame {f : Frame} (h : wellFormedFrame f = true)
    (s : ClientState) (ls : List (List Char)) :
    processLines s (lineChars f :: ls) = processLines (applyFrame s f) ls := by
  cases f with
  | push t m =>
    simp only [wellFormedFrame, Bool.and_eq_true, decide_eq_true_eq] at h
    obtain ⟨⟨h1, h2⟩, h3⟩ := h
    have hps : ':' ∉ "push".data := by decide
    have hsplit1 : splitFirst ':' (lineChars (Frame.push t m)) =
        some ("push".data, t.data ++ ':' :: m.data) := by
      simpa [lineChars] using @splitFirst_append_self ':' "push".data (t.data ++ ':' :: m.data) hps
    have hsplit2 : splitFirst ':' (t.data ++ ':' :: m.data) = some (t.data, m.data) :=
      splitFirst_append_self h2
    simp only [processLines, hsplit1, hsplit2]
    rfl
  | resp st m =>
    simp only [wellFormedFrame, Bool.and_eq_true, decide_eq_true_eq] at h
    obtain ⟨⟨⟨h1, h2⟩, h3⟩, h4⟩ := h
    have hsplit1 : splitFirst ':' (lineChars (Frame.resp st m)) = some (st.data, m.data) := by
      simpa [lineChars] using @splitFirst_append_self ':' st.data m.data h2
    have hne : ¬String.mk st.data = "push" := by
      rw [show String.mk st.data = st from rfl]; exact h3
    simp only [processLines, hsplit1, if_neg hne]
    rfl

theorem splitLines_encodeFrames {fs : List Frame}
    (h : ∀ f ∈ fs, wellFormedFrame f = true) :
    splitLines (encodeFrames fs) = (fs.map lineChars, []) := by
  induction fs with
  | nil => rfl
  | cons f fs ih =>
    have hf := h f (List.mem_cons_self f fs)
    have hrest : ∀ g ∈ fs, wellFormedFrame g = true :=
      fun g hg => h g (List.mem_cons_of_mem f hg)
    have hnl := newline_not_mem_lineChars hf
    have hshape : encodeFrames (f :: fs) = lineChars f ++ '\n' :: encodeFrames fs := by
      show frameChars f ++ encodeFrames fs = _
      rw [frameChars_eq]
      simp
    rw [hshape, splitLines_cons_line hnl, ih hrest]
    simp

theorem applyFrame_respQ (s : ClientState) (f : Frame) :
    (applyFrame s f).respQ = s.respQ ++ (respEntry f).toList := by
  cases f with
  | push t m =>
    simp only [applyFrame, routePush, respEntry]
    split_ifs <;> simp [delete_cards]
  | resp st m => simp [applyFrame, respEntry]

theorem applyFrame_pushQ (s : ClientState) (f : Frame) :
    (applyFrame s f).pushQ = s.pushQ ++ (pushEntry f).toList := by
  cases f with
  | push t m =>
    simp only [applyFrame, routePush, pushEntry]
    split_ifs <;> simp_all [delete_cards]
  | resp st m => simp [applyFrame, pushEntry]

theorem filterMap_cons_toList (g : α → Option β) (a : α) (l : List α) :
    (a :: l).filterMap g = (g a).toList ++ l.filterMap g := by
  cases h : g a <;> simp [List.filterMap_cons, h]

theorem processLines_wf_frames {fs : List Frame}
    (h : ∀ f ∈ fs, wellFormedFrame f = true) (s : ClientState) :
    ∃ s', processLines s (fs.map lineChars) = ListenResult.next s' ∧
      s'.respQ = s.respQ ++ fs.filterMap respEntry ∧
      s'.pushQ = s.pushQ ++ fs.filterMap pushEntry := by
  induction fs generalizing s with
  | nil => exact ⟨s, rfl, by simp, by simp⟩
  | cons f fs ih =>
    have hf := h f (List.mem_cons_self f fs)
    have hrest : ∀ g ∈ fs, wellFormedFrame g = true :=
      fun g hg => h g (List.mem_cons_of_mem f hg)
    rw [List.map_cons, processLines_applyFrame hf]
    obtain ⟨s', hrun, hresp, hpush⟩ := ih hrest (applyFrame s f)
    refine ⟨s', hrun, ?_, ?_⟩
    · rw [hresp, applyFrame_respQ, filterMap_cons_toList, List.append_assoc]
    · rw [hpush, applyFrame_pushQ, filterMap_cons_toList, List.append_assoc]

/-! ### Claim theorems -/

/-- C1 (code bug in `_listen`, client.py lines 89-92): a zero-length read —
`recv` returning no bytes because the peer shut down — leaves the client
state completely unchanged: the listener neither stops nor marks the
connection not-connected (the loop condition `while self.connected` stays
true), so a caller blocked on the response queue is never released.  The
`# TODO: check if recv_data is empty` comment at line 91 marks the missing
check. -/
theorem zero_length_read_keeps_state (s : ClientState) :
    listenRecv s [] = ListenResult.next s ∧
      connectedAfter (listenRecv s []) = s.connected :=
  ⟨rfl, rfl⟩

/-- C3 counterexample: the command `"hello"` has no newline, but decoding
its encoding yields no frame at all — the colon split raises instead of
producing one frame, so the round-trip property fails for colon-free
commands. -/
theorem decode_encode_no_colon : (decodeFrames (encodeCmd "hello")).1 = none := by
  decide

/-- C3 (amended): for every command string with no newline that contains at
least one colon, encoding (append `"\n"`, client.py line 116) and then
running the listener's decode step yields exactly one frame, the original
string split on its first colon, with an empty remainder. -/
theorem decode_encode_roundtrip (cmd : String) (h1 : '\n' ∉ cmd.data)
    (h2 : ':' ∈ cmd.data) :
    (firstColonSplit cmd).isSome ∧
      decodeFrames (encodeCmd cmd) = ((firstColonSplit cmd).map fun fr => [fr], []) := by
  have hsome : (splitFirst ':' cmd.data).isSome := splitFirst_isSome_of_mem h2
  rcases hs : splitFirst ':' cmd.data with _ | ⟨pre, pay⟩
  · rw [hs] at hsome
    simp at hsome
  · have hss : splitStatus cmd.data = some (String.mk pre, String.mk pay) := by
      simp [splitStatus, hs]
    constructor
    · simp [firstColonSplit, hss]
    · have hdata : encodeCmd cmd = cmd.data ++ '\n' :: [] := by
        simp [encodeCmd]
      rw [hdata]
      simp only [decodeFrames, splitLines_cons_line h1]
      simp [splitLines, decodeFrames.go, hss, firstColonSplit]

/-- C3 witness: the round-trip at the concrete command `"ok:hi"`. -/
theorem decode_encode_roundtrip_witness :
    ('\n' ∉ "ok:hi".data) ∧ (':' ∈ "ok:hi".data) ∧
      ((firstColonSplit "ok:hi").isSome ∧
        decodeFrames (encodeCmd "ok:hi") =
          ((firstColonSplit "ok:hi").map fun fr => [fr], [])) :=
  ⟨by decide, by decide, decode_encode_roundtrip "ok:hi" (by decide) (by decide)⟩

/-- C4: for every interleaving of well-formed push and response frames
delivered in one batch, the listener routes each push frame (after its
topic-specific decoding, with `yourturn` contributing no entry) only to the
push queue and each other frame as a `(status, message)` pair only to the
response queue, preserving arrival order within each queue. -/
theorem push_response_segregation (fs : List Frame) (s : ClientState)
    (h : ∀ f ∈ fs, wellFormedFrame f = true) :
    ∃ s', listenRecv s (encodeFrames fs) = ListenResult.next s' ∧
      s'.respQ = s.respQ ++ fs.filterMap respEntry ∧
      s'.pushQ = s.pushQ ++ fs.filterMap pushEntry := by
  unfold listenRecv
  rw [splitLines_encodeFrames h]
  exact processLines_wf_frames h s

/-- C4 witness: a concrete interleaved batch of two responses and three
pushes. -/
theorem push_response_segregation_witness :
    (∀ f ∈ [Frame.resp "ok" "m1", Frame.push "newtrick" "Red K,",
        Frame.push "yourturn" "", Frame.resp "err" "m2", Frame.push "other" "x"],
      wellFormedFrame f = true) ∧
    (∃ s', listenRecv ⟨true, [], [], false, [], []⟩
        (encodeFrames [Frame.resp "ok" "m1", Frame.push "newtrick" "Red K,",
          Frame.push "yourturn" "", Frame.resp "err" "m2", Frame.push "other" "x"]) =
          ListenResult.next s' ∧
      s'.respQ = (⟨true, [], [], false, [], []⟩ : ClientState).respQ ++
        [Frame.resp "ok" "m1", Frame.push "newtrick" "Red K,", Frame.push "yourturn" "",
          Frame.resp "err" "m2", Frame.push "other" "x"].filterMap respEntry ∧
      s'.pushQ = (⟨true, [], [], false, [], []⟩ : ClientState).pushQ ++
        [Frame.resp "ok" "m1", Frame.push "newtrick" "Red K,", Frame.push "yourturn" "",
          Frame.resp "err" "m2", Frame.push "other" "x"].filterMap pushEntry) :=
  ⟨by decide, push_response_segregation _ _ (by decide)⟩

/-- C6: a `push:yourturn:...` frame sets the turn flag true and enqueues
nothing (the push queue of the resulting state is unchanged), and a
subsequent `play` or `pass_play` whose reply status is `"ok"` sets the turn
flag false. -/
theorem turn_flag_lifecycle (s : ClientState) (m : String) (hm : '\n' ∉ m.data) :
    listenRecv s (frameChars (Frame.push "yourturn" m)) =
      ListenResult.next { s with turn := true } ∧
    ({ s with turn := true } : ClientState).pushQ = s.pushQ ∧
    (∀ s' msg, play ("ok", msg) s' = Except.ok { s' with stage := [], turn := false }) ∧
    (∀ s' msg, pass_play ("ok", msg) s' = Except.ok { s' with turn := false }) := by
  refine ⟨?_, rfl, fun s' msg => by simp [play], fun s' msg => by simp [pass_play]⟩
  have hy1 : '\n' ∉ "yourturn".data := by decide
  have hy2 : ':' ∉ "yourturn".data := by decide
  have hwf : wellFormedFrame (Frame.push "yourturn" m) = true := by
    simp [wellFormedFrame, hy1, hy2, hm]
  unfold listenRecv
  rw [frameChars_eq]
  have hsh : lineChars (Frame.push "yourturn" m) ++ ['\n'] =
      lineChars (Frame.push "yourturn" m) ++ '\n' :: ([] : List Char) := rfl
  rw [hsh, splitLines_cons_line (newline_not_mem_lineChars hwf)]
  show processLines s (lineChars (Frame.push "yourturn" m) :: ([] : List (List Char))) = _
  rw [processLines_applyFrame hwf]
  have hroute : routePush s "yourturn" m = { s with turn := true } := by
    simp [routePush]
  simp [processLines, applyFrame, hroute]

/-- C6 witness: the lifecycle at a concrete state with a non-empty push
queue, showing the queue is untouched. -/
theorem turn_flag_lifecycle_witness :
    ('\n' ∉ "".data) ∧
    (listenRecv ⟨true, [], [], false, [("t", PushMsg.str "p")], []⟩
        (frameChars (Frame.push "yourturn" "")) =
      ListenResult.next
        { (⟨true, [], [], false, [("t", PushMsg.str "p")], []⟩ : ClientState) with
            turn := true } ∧
    ({ (⟨true, [], [], false, [("t", PushMsg.str "p")], []⟩ : ClientState) with
        turn := true } : ClientState).pushQ =
      (⟨true, [], [], false, [("t", PushMsg.str "p")], []⟩ : ClientState).pushQ ∧
    (∀ s' msg, play ("ok", msg) s' = Except.ok { s' with stage := [], turn := false }) ∧
    (∀ s' msg, pass_play ("ok", msg) s' = Except.ok { s' with turn := false })) :=
  ⟨by decide, turn_flag_lifecycle _ "" (by decide)⟩

/-- C9 counterexample: decoding the colon-free line `"nocolon\n"` crashes
the listener (the split raises ValueError), and the `connected` flag is
still `true` afterwards — the client does not transition to Disconnected as
the claim states. -/
theorem malformed_keeps_connected :
    listenRecv ⟨true, [], [], false, [], []⟩ ("nocolon\n".data) =
      ListenResult.crash ⟨true, [], [], false, [], []⟩ ∧
    connectedAfter (listenRecv ⟨true, [], [], false, [], []⟩ ("nocolon\n".data)) = true := by
  decide

/-- C9 (amended): when the first decoded line lacks a colon, the listener
thread aborts with an exception (no exception reaches the foreground
thread, which only observes the queues), and the client state — including
the `connected` flag — is left exactly as it was: no transition to
Disconnected happens. -/
theorem malformed_line_crash (s : ClientState) (line rest : List Char)
    (h1 : '\n' ∉ line) (h2 : ':' ∉ line) :
    listenRecv s (line ++ '\n' :: rest) = ListenResult.crash s := by
  unfold listenRecv
  rw [splitLines_cons_line h1]
  show processLines s (line :: (splitLines rest).1) = _
  simp only [processLines, splitFirst_eq_none_of_not_mem h2]

/-- C9 witness: the crash at a concrete malformed line. -/
theorem malformed_line_crash_witness :
    ('\n' ∉ "bad".data) ∧ (':' ∉ "bad".data) ∧
    listenRecv ⟨true, [(0, "a")], [], true, [], []⟩ ("bad".data ++ '\n' :: "r".data) =
      ListenResult.crash ⟨true, [(0, "a")], [], true, [], []⟩ :=
  ⟨by decide, by decide, malformed_line_crash _ _ _ (by decide) (by decide)⟩

/-- C5: `request_cards` sends `"takecards"`; on an `"ok"` reply the public
hand becomes the payload lower-cased, split on commas, with the trailing
empty element dropped (concretely, `"green 2,red k,"` parses to
`["green 2", "red k"]`); on an `"err"` reply it raises `TichuError`
carrying the server's message verbatim. -/
theorem request_cards_behavior (s : ClientState) (msg : String) :
    request_cards_cmd = "takecards" ∧
    request_cards ("ok", msg) s = Except.ok (setHand s (parseCardList msg)) ∧
    handView (setHand s (parseCardList msg)) = parseCardList msg ∧
    parseCardList "green 2,red k," = ["green 2", "red k"] ∧
    request_cards ("err", msg) s = Except.error msg := by
  refine ⟨rfl, by simp [request_cards], ?_, by decide, by simp [request_cards]⟩
  simp [handView, setHand, List.enum_map_snd]

/-- C10: a `request_cards` call whose reply status is `"ok"` replaces only
the hand; the stage (with its saved original-index tags), the turn flag,
the push queue, the response queue and the connected flag are all left
unchanged. -/
theorem request_cards_frame_effect (s : ClientState) (msg : String) (s' : ClientState)
    (h : request_cards ("ok", msg) s = Except.ok s') :
    s'.stage = s.stage ∧ s'.turn = s.turn ∧ s'.pushQ = s.pushQ ∧ s'.respQ = s.respQ ∧
    s'.connected = s.connected ∧ s'.hand = (parseCardList msg).enum := by
  have h' : setHand s (parseCardList msg) = s' := by
    simpa [request_cards] using h
  subst h'
  simp [setHand]

/-- C10 witness: the frame effect at a concrete state with a staged card
and non-empty queues. -/
theorem request_cards_frame_effect_witness :
    request_cards ("ok", "a,")
        ⟨true, [(0, "z")], [(7, "w")], true, [("t", PushMsg.str "p")], [("ok", "q")]⟩ =
      Except.ok ⟨true, [(0, "a")], [(7, "w")], true, [("t", PushMsg.str "p")], [("ok", "q")]⟩ ∧
    ((⟨true, [(0, "a")], [(7, "w")], true, [("t", PushMsg.str "p")], [("ok", "q")]⟩ :
        ClientState).stage =
      (⟨true, [(0, "z")], [(7, "w")], true, [("t", PushMsg.str "p")], [("ok", "q")]⟩ :
        ClientState).stage ∧
    (⟨true, [(0, "a")], [(7, "w")], true, [("t", PushMsg.str "p")], [("ok", "q")]⟩ :
        ClientState).turn =
      (⟨true, [(0, "z")], [(7, "w")], true, [("t", PushMsg.str "p")], [("ok", "q")]⟩ :
        ClientState).turn ∧
    (⟨true, [(0, "a")], [(7, "w")], true, [("t", PushMsg.str "p")], [("ok", "q")]⟩ :
        ClientState).pushQ =
      (⟨true, [(0, "z")], [(7, "w")], true, [("t", PushMsg.str "p")], [("ok", "q")]⟩ :
        ClientState).pushQ ∧
    (⟨true, [(0, "a")], [(7, "w")], true, [("t", PushMsg.str "p")], [("ok", "q")]⟩ :
        ClientState).respQ =
      (⟨true, [(0, "z")], [(7, "w")], true, [("t", PushMsg.str "p")], [("ok", "q")]⟩ :
        ClientState).respQ ∧
    (⟨true, [(0, "a")], [(7, "w")], true, [("t", PushMsg.str "p")], [("ok", "q")]⟩ :
        ClientState).connected =
      (⟨true, [(0, "z")], [(7, "w")], true, [("t", PushMsg.str "p")], [("ok", "q")]⟩ :
        ClientState).connected ∧
    (⟨true, [(0, "a")], [(7, "w")], true, [("t", PushMsg.str "p")], [("ok", "q")]⟩ :
        ClientState).hand = (parseCardList "a,").enum) :=
  ⟨by decide, request_cards_frame_effect _ "a," _ (by decide)⟩

/-- C8 counterexample: `stage_card(0, 5)` on a one-card hand with an empty
stage succeeds even though the insertion index 5 is out of range of the
stage both before and after the move — the operation does not fail for
every out-of-range supplied index, contrary to the claim. -/
theorem insert_index_never_fails :
    (stage_card 0 5 ⟨true, [(0, "a")], [], false, [], []⟩).isSome = true ∧
    ¬pyInRange 5 (⟨true, [(0, "a")], [], false, [], []⟩ : ClientState).stage.length ∧
    ¬pyInRange 5 ((stage_card 0 5 ⟨true, [(0, "a")], [], false, [], []⟩).getD
        ⟨true, [], [], false, [], []⟩).stage.length := by
  decide

/-- C8 (amended): the four local card operations touch only the in-memory
hand and stage (connection flag, turn flag and both queues are untouched);
each fails with IndexError exactly when its pop index is out of range of
the source sequence (Python range `-n ≤ i < n`), while the insertion index
never causes a failure because `list.insert` clamps it. -/
theorem local_ops_bounds (s : ClientState) (i j : Int) :
    ((stage_card i j s).isSome ↔ pyInRange i s.hand.length) ∧
    ((unstage_card i j s).isSome ↔ pyInRange i s.stage.length) ∧
    ((move_hand i j s).isSome ↔ pyInRange i s.hand.length) ∧
    ((move_stage i j s).isSome ↔ pyInRange i s.stage.length) ∧
    (∀ s', stage_card i j s = some s' ∨ unstage_card i j s = some s' ∨
        move_hand i j s = some s' ∨ move_stage i j s = some s' →
      s'.connected = s.connected ∧ s'.turn = s.turn ∧
        s'.pushQ = s.pushQ ∧ s'.respQ = s.respQ) := by
  refine ⟨?_, ?_, ?_, ?_, ?_⟩
  · rw [← @pyPop_isSome_iff _ s.hand i]
    rcases hp : pyPop s.hand i with _ | ⟨c, rest⟩ <;> simp [stage_card, hp]
  · rw [← @pyPop_isSome_iff _ s.stage i]
    rcases hp : pyPop s.stage i with _ | ⟨c, rest⟩ <;> simp [unstage_card, hp]
  · rw [← @pyPop_isSome_iff _ s.hand i]
    rcases hp : pyPop s.hand i with _ | ⟨c, rest⟩ <;> simp [move_hand, hp]
  · rw [← @pyPop_isSome_iff _ s.stage i]
    rcases hp : pyPop s.stage i with _ | ⟨c, rest⟩ <;> simp [move_stage, hp]
  · intro s' hcase
    rcases hcase with hc | hc | hc | hc
    · rcases hp : pyPop s.hand i with _ | ⟨c, rest⟩ <;> simp only [stage_card, hp] at hc
      · exact absurd hc (by simp)
      · obtain rfl := (Option.some.inj hc).symm
        exact ⟨rfl, rfl, rfl, rfl⟩
    · rcases hp : pyPop s.stage i with _ | ⟨c, rest⟩ <;> simp only [unstage_card, hp] at hc
      · exact absurd hc (by simp)
      · obtain rfl := (Option.some.inj hc).symm
        exact ⟨rfl, rfl, rfl, rfl⟩
    · rcases hp : pyPop s.hand i with _ | ⟨c, rest⟩ <;> simp only [move_hand, hp] at hc
      · exact absurd hc (by simp)
      · obtain rfl := (Option.some.inj hc).symm
        exact ⟨rfl, rfl, rfl, rfl⟩
    · rcases hp : pyPop s.stage i with _ | ⟨c, rest⟩ <;> simp only [move_stage, hp] at hc
      · exact absurd hc (by simp)
      · obtain rfl := (Option.some.inj hc).symm
        exact ⟨rfl, rfl, rfl, rfl⟩

/-- C8 witness: the bounds equivalence evaluated at a concrete state. -/
theorem local_ops_bounds_witness :
    (stage_card 0 0 ⟨true, [(0, "a")], [], false, [], []⟩).isSome ↔
      pyInRange 0 (⟨true, [(0, "a")], [], false, [], []⟩ : ClientState).hand.length :=
  (local_ops_bounds ⟨true, [(0, "a")], [], false, [], []⟩ 0 0).1

/-- C7 counterexample: with hand `["a"]` and empty stage, `stage_card(0, 5)`
succeeds (the insert clamps the index), but the paired `unstage_card(5, 0)`
raises IndexError, so the composite does not restore the original state. -/
theorem stage_unstage_not_inverse :
    ((stage_card 0 5 ⟨true, [(0, "a")], [], false, [], []⟩).bind (unstage_card 5 0)) ≠
      some ⟨true, [(0, "a")], [], false, [], []⟩ := by
  decide

/-- C7 (amended): for indices in the natural ranges — `0 ≤ i <` hand length
and `0 ≤ j ≤` stage length — `stage_card(i, j)` followed by
`unstage_card(j, i)` restores the hand and the stage (and the whole client
state) exactly. -/
theorem stage_unstage_roundtrip (s : ClientState) (i j : Int)
    (h0 : 0 ≤ i) (h1 : i < (s.hand.length : Int))
    (h2 : 0 ≤ j) (h3 : j ≤ (s.stage.length : Int)) :
    (stage_card i j s).bind (unstage_card j i) = some s := by
  obtain ⟨c, hget, hpop⟩ := pyPop_of_nonneg h0 h1
  have hins : pyInsert s.stage j c = pyInsertNat j.toNat c s.stage :=
    pyInsert_of_nonneg h2 h3
  have hstage : stage_card i j s =
      some { s with hand := s.hand.eraseIdx i.toNat,
                    stage := pyInsertNat j.toNat c s.stage } := by
    simp only [stage_card, hpop, hins]
  rw [hstage]
  show unstage_card j i
      { s with hand := s.hand.eraseIdx i.toNat,
               stage := pyInsertNat j.toNat c s.stage } = some s
  have hjn : j.toNat ≤ s.stage.length := by omega
  have hitn : i.toNat < s.hand.length := by omega
  have hlenh : (s.hand.eraseIdx i.toNat).length = s.hand.length - 1 := by
    rw [List.length_eraseIdx]
    simp [hitn]
  have hpop2 : pyPop (pyInsertNat j.toNat c s.stage) j = some (c, s.stage) := by
    obtain ⟨a, hga, hpa⟩ := @pyPop_of_nonneg _ (pyInsertNat j.toNat c s.stage) j h2
      (by rw [pyInsertNat_length]; omega)
    rw [get?_pyInsertNat_self hjn] at hga
    obtain rfl := Option.some.inj hga
    rw [eraseIdx_pyInsertNat_self hjn] at hpa
    exact hpa
  have hhand : pyInsert (s.hand.eraseIdx i.toNat) i c = s.hand := by
    have h1' : i ≤ ((s.hand.eraseIdx i.toNat).length : Int) := by
      rw [hlenh]; omega
    rw [pyInsert_of_nonneg h0 h1']
    exact pyInsertNat_get_eraseIdx hget
  simp only [unstage_card, hpop2, hhand]

/-- C7 witness: the round trip at a concrete state with two hand cards and
one staged card. -/
theorem stage_unstage_roundtrip_witness :
    (0 : Int) ≤ 1 ∧
    (1 : Int) < ((⟨true, [(0, "a"), (1, "b")], [(5, "x")], false, [], []⟩ :
      ClientState).hand.length : Int) ∧
    (0 : Int) ≤ 0 ∧
    (0 : Int) ≤ ((⟨true, [(0, "a"), (1, "b")], [(5, "x")], false, [], []⟩ :
      ClientState).stage.length : Int) ∧
    (stage_card 1 0 ⟨true, [(0, "a"), (1, "b")], [(5, "x")], false, [], []⟩).bind
        (unstage_card 0 1) =
      some ⟨true, [(0, "a"), (1, "b")], [(5, "x")], false, [], []⟩ :=
  ⟨by decide, by decide, by decide, by decide,
    stage_unstage_roundtrip _ 1 0 (by decide) (by decide) (by decide) (by decide)⟩

theorem reachLocal_inv {h : List String} {s : ClientState} (hr : ReachLocal h s) :
    ∀ p : Nat × String, p ∈ s.hand ∨ p ∈ s.stage → h.get? p.1 = some p.2 := by
  induction hr with
  | base t hh hs =>
    intro p hp
    rcases hp with hp | hp
    · obtain ⟨i, c⟩ := p
      rw [hh] at hp
      exact List.mk_mem_enum_iff_get?.mp hp
    · rw [hs] at hp
      simp at hp
  | stage_step t t' i j hr' hop ih =>
    intro p hp
    rcases hpop : pyPop t.hand i with _ | ⟨c, rest⟩ <;> simp only [stage_card, hpop] at hop
    · exact absurd hop (by simp)
    · obtain rfl := (Option.some.inj hop).symm
      apply ih
      rcases hp with hp | hp
      · exact Or.inl (pyPop_subset hpop p hp)
      · rcases pyInsert_mem hp with e | hm
        · exact Or.inl (e ▸ pyPop_mem hpop)
        · exact Or.inr hm
  | unstage_step t t' i j hr' hop ih =>
    intro p hp
    rcases hpop : pyPop t.stage i with _ | ⟨c, rest⟩ <;> simp only [unstage_card, hpop] at hop
    · exact absurd hop (by simp)
    · obtain rfl := (Option.some.inj hop).symm
      apply ih
      rcases hp with hp | hp
      · rcases pyInsert_mem hp with e | hm
        · exact Or.inr (e ▸ pyPop_mem hpop)
        · exact Or.inl hm
      · exact Or.inr (pyPop_subset hpop p hp)
  | move_hand_step t t' i j hr' hop ih =>
    intro p hp
    rcases hpop : pyPop t.hand i with _ | ⟨c, rest⟩ <;> simp only [move_hand, hpop] at hop
    · exact absurd hop (by simp)
    · obtain rfl := (Option.some.inj hop).symm
      apply ih
      rcases hp with hp | hp
      · rcases pyInsert_mem hp with e | hm
        · exact Or.inl (e ▸ pyPop_mem hpop)
        · exact Or.inl (pyPop_subset hpop p hm)
      · exact Or.inr hp
  | move_stage_step t t' i j hr' hop ih =>
    intro p hp
    rcases hpop : pyPop t.stage i with _ | ⟨c, rest⟩ <;> simp only [move_stage, hpop] at hop
    · exact absurd hop (by simp)
    · obtain rfl := (Option.some.inj hop).symm
      apply ih
      rcases hp with hp | hp
      · exact Or.inl hp
      · rcases pyInsert_mem hp with e | hm
        · exact Or.inr (e ▸ pyPop_mem hpop)
        · exact Or.inr (pyPop_subset hpop p hm)

/-- C2: in every client state reached from an assigned hand `h` by local
staging, unstaging and reordering, with a non-empty stage, the `play`
command is `"play "` followed by the space-separated saved tags of the
staged cards, and each staged card's tag is its original position in `h`
(the hand as it was when last assigned), independent of any reordering. -/
theorem play_reports_original_indices (h : List String) (s : ClientState)
    (hr : ReachLocal h s) (_hne : s.stage ≠ []) :
    playCmd s = "play " ++ String.intercalate " " (s.stage.map fun p => toString p.1) ∧
    ∀ p ∈ s.stage, h.get? p.1 = some p.2 :=
  ⟨rfl, fun p hp => reachLocal_inv hr p (Or.inr hp)⟩

/-- C2 witness: hand `["a", "b", "c"]`, then `stage_card(0, 0)` and
`stage_card(1, 0)` — staging the cards with original indices 0 and 2 — and
the play command reports exactly those original indices. -/
theorem play_reports_original_indices_witness :
    (⟨true, [(1, "b")], [(2, "c"), (0, "a")], false, [], []⟩ : ClientState).stage ≠ [] ∧
    (playCmd ⟨true, [(1, "b")], [(2, "c"), (0, "a")], false, [], []⟩ =
      "play " ++ String.intercalate " "
        ((⟨true, [(1, "b")], [(2, "c"), (0, "a")], false, [], []⟩ :
          ClientState).stage.map fun p => toString p.1) ∧
    ∀ p ∈ (⟨true, [(1, "b")], [(2, "c"), (0, "a")], false, [], []⟩ :
        ClientState).stage,
      ["a", "b", "c"].get? p.1 = some p.2) :=
  ⟨by decide,
    play_reports_original_indices ["a", "b", "c"]
      ⟨true, [(1, "b")], [(2, "c"), (0, "a")], false, [], []⟩
      (ReachLocal.stage_step
        ⟨true, [(1, "b"), (2, "c")], [(0, "a")], false, [], []⟩
        ⟨true, [(1, "b")], [(2, "c"), (0, "a")], false, [], []⟩ 1 0
        (ReachLocal.stage_step
          ⟨true, [(0, "a"), (1, "b"), (2, "c")], [], false, [], []⟩
          ⟨true, [(1, "b"), (2, "c")], [(0, "a")], false, [], []⟩ 0 0
          (ReachLocal.base ⟨true, [(0, "a"), (1, "b"), (2, "c")], [], false, [], []⟩
            (by decide) rfl)
          (by decide))
        (by decide))
      (by decide)⟩

end TichuClient
